import Mathlib

/-!
Verification of the chunk codec in `common.py` (class `chunk`).

Bytes objects are modelled as `List Nat` (one `Nat` per byte).  Python
exceptions are modelled as `Option`/`Except` failure values: a function that
can raise returns `none` / `.error ()` on the raising path.  The five value
shapes accepted by `chunk.encode` (str, bytes, dict, list/tuple of pairs,
int) form the inductive type `Value`; a Python `dict` is modelled as its
insertion-ordered association list with (necessarily) distinct keys.
-/

namespace ChunkProtocol

/-- A byte string, one `Nat` per byte. -/
abbrev Bytes := List Nat

/-- Models Python `str.encode()` (UTF-8): the UTF-8 bytes of each
character, concatenated. -/
def pyStrEncode (s : String) : Bytes :=
  (s.data.map (fun c => (String.utf8EncodeChar c).map UInt8.toNat)).flatten

/-- Models `struct.pack("<4s", id)`: the value is truncated, or padded with
NUL bytes, to exactly 4 bytes. -/
def pack4s (id : Bytes) : Bytes :=
  id.take 4 ++ List.replicate (4 - id.length) 0

/-- Models `struct.pack("<I", n)`: four little-endian bytes; `struct.error`
(here `none`) if `n` does not fit in an unsigned 32-bit integer. -/
def packU32LE (n : Nat) : Option Bytes :=
  if n < 2 ^ 32 then
    some [n % 256, n / 256 % 256, n / 65536 % 256, n / 16777216 % 256]
  else none

/-- Models `struct.unpack("<I", b)` on a 4-byte input. -/
def unpackU32LE : Bytes → Nat
  | [a, b, c, d] => a + 256 * b + 65536 * c + 16777216 * d
  | _ => 0

/-- The value shapes accepted by `chunk.encode`: str, bytes, dict
(association list in insertion order), list/tuple of `(id, contents)`
pairs, and int.  The dispatch in `chunk.encode` is a closed match over
these shapes. -/
inductive Value : Type where
  | str (s : String)
  | bytes (b : Bytes)
  | dict (d : List (Bytes × Value))
  | seq (l : List (Bytes × Value))
  | int (n : Int)

/-- Models `sorted(contents.keys())` followed by indexing: the key/value
pairs sorted by key in ascending byte order (Python compares bytes
lexicographically; dict keys are distinct, so sorting the pairs by key is
the same as sorting the keys and looking each one up). -/
def sortPairs (d : List (Bytes × Value)) : List (Bytes × Value) :=
  List.insertionSort (fun a b => a.1 ≤ b.1) d

/-- Permutations of a list have equal `sizeOf`; used for termination of
`encode` below (sorting the pairs of a dict does not change their size). -/
theorem perm_sizeOf_eq {α : Type} [SizeOf α] {l₁ l₂ : List α}
    (h : l₁.Perm l₂) : sizeOf l₁ = sizeOf l₂ := by
  induction h with
  | nil => rfl
  | cons x _ ih => simp only [List.cons.sizeOf_spec]; omega
  | swap x y l => simp only [List.cons.sizeOf_spec]; omega
  | trans _ _ ih₁ ih₂ => omega

mutual

/-- Models `chunk.encode`: converts contents to a bytes object.  A str is
UTF-8 encoded; bytes pass through; a dict becomes the concatenation of
`make key value` for its keys in ascending order; a list/tuple of pairs
becomes the concatenation of `make id value` in the given order; an int
becomes its decimal ASCII string (`"%d" % contents`).  The `Value` type is
closed, so the `TypeError` branch of the source has no counterpart. -/
def encode : Value → Option Bytes
  | .str s => some (pyStrEncode s)
  | .bytes b => some b
  | .dict d => encodeEach (sortPairs d)
  | .seq l => encodeEach l
  | .int n => some (pyStrEncode (toString n))
termination_by v => sizeOf v
decreasing_by
  · have hs := perm_sizeOf_eq
      (List.perm_insertionSort (fun a b : Bytes × Value => a.1 ≤ b.1) d)
    simp only [Value.dict.sizeOf_spec, sortPairs]
    omega
  · simp only [Value.seq.sizeOf_spec]
    omega

/-- Models the joined generator `b"".join(chunk.make(i, c) for (i, c) in l)`
used by the dict and list/tuple branches of `chunk.encode`. -/
def encodeEach : List (Bytes × Value) → Option Bytes
  | [] => some []
  | (id, v) :: rest =>
    (make id v).bind fun c => (encodeEach rest).map fun r => c ++ r
termination_by l => sizeOf l
decreasing_by
  · simp only [List.cons.sizeOf_spec, Prod.mk.sizeOf_spec]
    omega
  · simp only [List.cons.sizeOf_spec]
    omega

/-- Models `chunk.make`: creates a new chunk, `struct.pack("<4sI", id,
len(contents)) + contents`, with contents already passed through
`chunk.encode`. -/
def make (id : Bytes) (contents : Value) : Option Bytes :=
  (encode contents).bind fun c =>
    (packU32LE c.length).map fun lenb => pack4s id ++ lenb ++ c
termination_by 1 + sizeOf contents
decreasing_by
  omega

end

/-- Models `chunk.extract_header`: parses a chunk header into its ID and
length fields; the `assert len(data) == 8` guard is modelled as `none`
(an `AssertionError`). -/
def extract_header (data : Bytes) : Option (Bytes × Nat) :=
  if data.length = 8 then some (data.take 4, unpackU32LE (data.drop 4))
  else none

/-- Models `chunk.extract`: parses a chunk into its ID, contents and
whatever comes after, returning `none` (inner `Option`) if the data cannot
be parsed.  The `.error` side models an uncaught exception escaping from
`extract_header`; the payload slice `data[8 : length + 8]` is
`(data.drop 8).take length` and `data[length + 8 :]` is
`data.drop (length + 8)`. -/
def extract (data : Bytes) : Except Unit (Option (Bytes × Bytes × Bytes)) :=
  if 8 ≤ data.length then
    match extract_header (data.take 8) with
    | some (id, length) =>
      if length + 8 ≤ data.length then
        Except.ok (some (id, (data.drop 8).take length, data.drop (length + 8)))
      else Except.ok none
    | none => Except.error ()
  else Except.ok none

/-- When `extract` returns a chunk, the remainder is at least 8 bytes
shorter than the input; used for termination of `extract_iter`. -/
theorem extract_rest_length {data id payload rest : Bytes}
    (h : extract data = Except.ok (some (id, payload, rest))) :
    rest.length + 8 ≤ data.length := by
  unfold extract at h
  split at h
  · split at h
    · rename_i heq
      split at h
      · simp only [Except.ok.injEq, Option.some.injEq, Prod.mk.injEq] at h
        obtain ⟨-, -, hrest⟩ := h
        subst hrest
        simp only [List.length_drop]
        omega
      · simp at h
    · simp at h
  · simp at h

/-- Models `chunk.extract_iter`: parses data, yielding successive pairs of
chunk IDs and corresponding contents, repeatedly calling `chunk.extract`
and stopping at the first `none`; an exception from `extract` would
propagate out of the loop. -/
def extract_iter (data : Bytes) : Except Unit (List (Bytes × Bytes)) :=
  match h : extract data with
  | Except.error e => Except.error e
  | Except.ok none => Except.ok []
  | Except.ok (some (id, contents, rest)) =>
    match extract_iter rest with
    | Except.error e => Except.error e
    | Except.ok more => Except.ok ((id, contents) :: more)
termination_by data.length
decreasing_by
  have hlen := extract_rest_length h
  omega

/-! ### Helper lemmas about the decoder -/

/-- The header slice `data[:8]` always has length 8 when `len(data) >= 8`,
so the assertion in `extract_header` cannot fire from `extract`. -/
theorem extract_ok (data : Bytes) : ∃ r, extract data = Except.ok r := by
  unfold extract
  split
  · rename_i h8
    split
    · split
      · exact ⟨_, rfl⟩
      · exact ⟨_, rfl⟩
    · rename_i hnone
      exfalso
      have hlen : (data.take 8).length = 8 := by
        simp only [List.length_take]
        omega
      simp [extract_header, hlen] at hnone
  · exact ⟨_, rfl⟩

/-- Unfolding `extract_iter` when `extract` finds no chunk. -/
theorem extract_iter_of_none {data : Bytes} (h : extract data = Except.ok none) :
    extract_iter data = Except.ok [] := by
  rw [extract_iter.eq_def]
  split
  · rename_i heq
    rw [h] at heq
    exact absurd heq (by simp)
  · rfl
  · rename_i id contents rest heq
    rw [h] at heq
    exact absurd heq (by simp)

/-- Unfolding `extract_iter` when `extract` finds a chunk. -/
theorem extract_iter_of_chunk {data id contents rest : Bytes}
    {more : List (Bytes × Bytes)}
    (h : extract data = Except.ok (some (id, contents, rest)))
    (h2 : extract_iter rest = Except.ok more) :
    extract_iter data = Except.ok ((id, contents) :: more) := by
  rw [extract_iter.eq_def]
  split
  · rename_i heq
    rw [h] at heq
    exact absurd heq (by simp)
  · rename_i heq
    rw [h] at heq
    exact absurd heq (by simp)
  · rename_i i c r heq
    rw [h] at heq
    obtain ⟨hi, hc, hr⟩ : i = id ∧ c = contents ∧ r = rest := by
      simpa using heq.symm
    subst hi; subst hc; subst hr
    rw [h2]

/-! ### The claims -/

/-- C7: `extract_header` with an input whose length is not exactly 8 fails
(the assertion, named `InvalidHeaderSize` by the spec); with an input of exactly 8
bytes it returns the first 4 bytes as the tag and the last 4 bytes decoded
as a little-endian unsigned 32-bit integer as the length. -/
theorem extract_header_size_guard :
    (∀ data : Bytes, data.length ≠ 8 → extract_header data = none) ∧
    (∀ b0 b1 b2 b3 b4 b5 b6 b7 : Nat,
      extract_header [b0, b1, b2, b3, b4, b5, b6, b7] =
        some ([b0, b1, b2, b3], b4 + 256 * b5 + 65536 * b6 + 16777216 * b7)) :=
  ⟨fun _ h => by simp [extract_header, h], fun _ _ _ _ _ _ _ _ => rfl⟩

/-- Witness for C7 at a concrete 3-byte input and a concrete 8-byte input. -/
theorem extract_header_size_guard_witness :
    extract_header [1, 2, 3] = none ∧
    extract_header [65, 66, 67, 68, 1, 2, 0, 0] =
      some ([65, 66, 67, 68], 1 + 256 * 2 + 65536 * 0 + 16777216 * 0) :=
  ⟨extract_header_size_guard.1 [1, 2, 3] (by decide),
   extract_header_size_guard.2 65 66 67 68 1 2 0 0⟩

/-- C8: `extract` never raises: it always returns a value (a triple or
`none`), and on the path where it calls `extract_header` the 8-byte
precondition is always satisfied, so the header parse never fails. -/
theorem extract_total_never_raises (data : Bytes) :
    (∃ r, extract data = Except.ok r) ∧
    (8 ≤ data.length → extract_header (data.take 8) ≠ none) := by
  refine ⟨extract_ok data, fun h8 => ?_⟩
  have hlen : (data.take 8).length = 8 := by
    simp only [List.length_take]
    omega
  simp [extract_header, hlen]

/-- Witness for C8 at a concrete 10-byte input. -/
theorem extract_total_never_raises_witness :
    extract_header (([0, 1, 2, 3, 4, 5, 6, 7, 8, 9] : Bytes).take 8) ≠ none :=
  (extract_total_never_raises [0, 1, 2, 3, 4, 5, 6, 7, 8, 9]).2 (by decide)

/-- C2: `extract` returns `none` when fewer than 8 bytes are present, and
when the declared length overruns the buffer; otherwise it returns the tag,
the `len`-byte payload starting at offset 8, and the remaining bytes after
the payload. -/
theorem extract_returns_none_or_chunk (data : Bytes) :
    (data.length < 8 → extract data = Except.ok none) ∧
    (∀ id len, extract_header (data.take 8) = some (id, len) →
      (data.length < 8 + len → extract data = Except.ok none) ∧
      (8 + len ≤ data.length →
        extract data =
          Except.ok (some (id, (data.drop 8).take len, data.drop (8 + len))))) := by
  constructor
  · intro hlt
    unfold extract
    rw [if_neg (by omega)]
  · intro id len hh
    constructor
    · intro hover
      unfold extract
      split
      · simp only [hh]
        rw [if_neg (by omega)]
      · rfl
    · intro hfit
      unfold extract
      rw [if_pos (by omega)]
      simp only [hh]
      rw [if_pos (by omega), Nat.add_comm len 8]

/-- Witness for C2: a 3-byte input, a truncated chunk, and a complete chunk
with a trailing byte. -/
theorem extract_returns_none_or_chunk_witness :
    extract [0, 1, 2] = Except.ok none ∧
    extract [65, 66, 67, 68, 5, 0, 0, 0, 99] = Except.ok none ∧
    extract [65, 66, 67, 68, 1, 0, 0, 0, 99, 7] =
      Except.ok (some ([65, 66, 67, 68],
        (([65, 66, 67, 68, 1, 0, 0, 0, 99, 7] : Bytes).drop 8).take 1,
        ([65, 66, 67, 68, 1, 0, 0, 0, 99, 7] : Bytes).drop (8 + 1))) :=
  ⟨(extract_returns_none_or_chunk [0, 1, 2]).1 (by decide),
   ((extract_returns_none_or_chunk [65, 66, 67, 68, 5, 0, 0, 0, 99]).2
      [65, 66, 67, 68] 5 rfl).1 (by decide),
   ((extract_returns_none_or_chunk [65, 66, 67, 68, 1, 0, 0, 0, 99, 7]).2
      [65, 66, 67, 68] 1 rfl).2 (by decide)⟩

/-- C9: whenever `extract data` returns a triple, the input decomposes
exactly as header (8 bytes) ++ payload ++ rest, the payload length equals
the length declared in the header, and the tag is the first 4 bytes. -/
theorem extract_decomposition {data id payload rest : Bytes}
    (h : extract data = Except.ok (some (id, payload, rest))) :
    data = data.take 8 ++ payload ++ rest ∧
    (∃ len, extract_header (data.take 8) = some (id, len) ∧ payload.length = len) ∧
    id = data.take 4 := by
  unfold extract at h
  split at h
  · rename_i h8
    split at h
    · rename_i id0 len heq
      split at h
      · rename_i hle
        obtain ⟨hid, hpay, hrest⟩ : id0 = id ∧ (data.drop 8).take len = payload ∧
            data.drop (len + 8) = rest := by simpa using h
        refine ⟨?_, ⟨len, ?_, ?_⟩, ?_⟩
        · rw [← hpay, ← hrest]
          rw [show len + 8 = 8 + len from Nat.add_comm len 8, ← List.drop_drop]
          rw [List.append_assoc, List.take_append_drop, List.take_append_drop]
        · rw [heq, hid]
        · rw [← hpay]
          simp only [List.length_take, List.length_drop]
          omega
        · have hh4 : id0 = (data.take 8).take 4 ∧
              len = unpackU32LE ((data.take 8).drop 4) := by
            simp only [extract_header] at heq
            rw [if_pos (by simp only [List.length_take]; omega)] at heq
            simpa using heq.symm
          rw [← hid, hh4.1, List.take_take]
          norm_num
      · simp at h
    · simp at h
  · simp at h

/-- Witness for C9 at a concrete complete chunk with a trailing byte. -/
theorem extract_decomposition_witness :
    ([65, 66, 67, 68, 1, 0, 0, 0, 99, 7] : Bytes) =
      ([65, 66, 67, 68, 1, 0, 0, 0, 99, 7] : Bytes).take 8 ++ [99] ++ [7] ∧
    (∃ len, extract_header (([65, 66, 67, 68, 1, 0, 0, 0, 99, 7] : Bytes).take 8) =
      some ([65, 66, 67, 68], len) ∧ ([99] : Bytes).length = len) ∧
    ([65, 66, 67, 68] : Bytes) = ([65, 66, 67, 68, 1, 0, 0, 0, 99, 7] : Bytes).take 4 :=
  @extract_decomposition [65, 66, 67, 68, 1, 0, 0, 0, 99, 7] [65, 66, 67, 68] [99] [7] rfl

/-- C1: Round-trip: for every 4-byte tag and payload shorter than 2^32
bytes, `make` succeeds and `extract` on its output returns the original
tag, the original payload and an empty remainder. -/
theorem make_extract_roundtrip (t p : Bytes) (ht : t.length = 4)
    (hp : p.length < 2 ^ 32) :
    make t (Value.bytes p) ≠ none ∧
    ∀ m, make t (Value.bytes p) = some m →
      extract m = Except.ok (some (t, p, [])) := by
  have h4 : pack4s t = t := by
    simp [pack4s, ht, List.take_of_length_le]
  have hmk : make t (Value.bytes p) =
      some (t ++ ([p.length % 256, p.length / 256 % 256, p.length / 65536 % 256,
        p.length / 16777216 % 256] ++ p)) := by
    have hp' : p.length < 4294967296 := by omega
    simp only [make, encode]
    simp [packU32LE, hp', h4]
  refine ⟨by rw [hmk]; simp, ?_⟩
  intro m hm
  rw [hmk] at hm
  obtain rfl : _ = m := Option.some.inj hm
  rw [← List.append_assoc]
  have hhd : (t ++ [p.length % 256, p.length / 256 % 256, p.length / 65536 % 256,
      p.length / 16777216 % 256]).length = 8 := by
    simp [ht]
  have hh : extract_header (t ++ [p.length % 256, p.length / 256 % 256,
      p.length / 65536 % 256, p.length / 16777216 % 256]) = some (t, p.length) := by
    unfold extract_header
    rw [if_pos hhd, List.take_left' ht, List.drop_left' ht]
    have hu : unpackU32LE [p.length % 256, p.length / 256 % 256, p.length / 65536 % 256,
        p.length / 16777216 % 256] = p.length := by
      simp only [unpackU32LE]
      omega
    rw [hu]
  unfold extract
  rw [if_pos (by simp only [List.length_append, hhd]; omega)]
  rw [List.take_left' hhd]
  simp only [hh]
  rw [if_pos (by simp only [List.length_append, hhd]; omega)]
  rw [List.drop_left' hhd, List.take_length]
  have h8 : p.length + 8 = (t ++ [p.length % 256, p.length / 256 % 256,
      p.length / 65536 % 256, p.length / 16777216 % 256]).length + p.length := by
    omega
  rw [h8, List.drop_append, List.drop_length]

/-- Witness for C1 at tag "ABCD" and payload [1, 2, 3]. -/
theorem make_extract_roundtrip_witness :
    extract [65, 66, 67, 68, 3, 0, 0, 0, 1, 2, 3] =
      Except.ok (some ([65, 66, 67, 68], [1, 2, 3], [])) :=
  (make_extract_roundtrip [65, 66, 67, 68] [1, 2, 3] (by decide) (by decide)).2
    [65, 66, 67, 68, 3, 0, 0, 0, 1, 2, 3] (by simp only [make, encode]; rfl)

/-- Each `extract_iter` run returns a list of at most `data.length / 8`
pairs: every yielded chunk consumes at least its 8 header bytes. -/
theorem extract_iter_bound : ∀ (n : Nat) (data : Bytes), data.length ≤ n →
    ∃ l, extract_iter data = Except.ok l ∧ 8 * l.length ≤ data.length := by
  intro n
  induction n with
  | zero =>
    intro data hn
    have hz : extract data = Except.ok none := by
      unfold extract
      rw [if_neg (by omega)]
    exact ⟨[], extract_iter_of_none hz, by simp⟩
  | succ n ih =>
    intro data hn
    obtain ⟨r, hr⟩ := extract_ok data
    rcases r with - | ⟨id, contents, rest⟩
    · exact ⟨[], extract_iter_of_none hr, by simp⟩
    · have hlt := extract_rest_length hr
      obtain ⟨l, hl, hb⟩ := ih rest (by omega)
      refine ⟨(id, contents) :: l, extract_iter_of_chunk hr hl, ?_⟩
      simp only [List.length_cons]
      omega

/-- C10: `extract_iter` always terminates with a finite list of pairs; each
pair consumes at least 8 bytes, so at most `len(data) / 8` pairs come out. -/
theorem extract_iter_finite (data : Bytes) :
    ∃ l, extract_iter data = Except.ok l ∧ 8 * l.length ≤ data.length ∧
      l.length ≤ data.length / 8 := by
  obtain ⟨l, h1, h2⟩ := extract_iter_bound data.length data le_rfl
  exact ⟨l, h1, h2, by omega⟩

/-- C5: `extract_iter` yields exactly the pairs obtained by repeatedly
applying `extract` to the remaining bytes, stopping at the first `none`;
on the concatenation of `make "AAAA" "x"` and `make "BBBB" "y"` it yields
exactly those two (tag, payload) pairs in order. -/
theorem extract_iter_streams :
    (∀ data : Bytes, extract_iter data =
      match extract data with
      | Except.error e => Except.error e
      | Except.ok none => Except.ok []
      | Except.ok (some (id, contents, rest)) =>
        match extract_iter rest with
        | Except.error e => Except.error e
        | Except.ok more => Except.ok ((id, contents) :: more)) ∧
    make [65, 65, 65, 65] (Value.str "x") = some [65, 65, 65, 65, 1, 0, 0, 0, 120] ∧
    make [66, 66, 66, 66] (Value.str "y") = some [66, 66, 66, 66, 1, 0, 0, 0, 121] ∧
    extract_iter ([65, 65, 65, 65, 1, 0, 0, 0, 120] ++ [66, 66, 66, 66, 1, 0, 0, 0, 121]) =
      Except.ok [([65, 65, 65, 65], [120]), ([66, 66, 66, 66], [121])] := by
  refine ⟨fun data => ?_, ?_, ?_, ?_⟩
  · obtain ⟨r, hr⟩ := extract_ok data
    rcases r with - | ⟨id, contents, rest⟩
    · rw [extract_iter_of_none hr, hr]
    · obtain ⟨l, hl, -⟩ := extract_iter_bound rest.length rest le_rfl
      rw [extract_iter_of_chunk hr hl]
      simp only [hr, hl]
  · simp only [make, encode]
    rfl
  · simp only [make, encode]
    rfl
  · exact extract_iter_of_chunk rfl (extract_iter_of_chunk rfl (extract_iter_of_none rfl))

/-! ### Sorting of dict keys -/

instance : IsTotal (Bytes × Value) (fun a b => a.1 ≤ b.1) :=
  ⟨fun a b => le_total a.1 b.1⟩

instance : IsTrans (Bytes × Value) (fun a b => a.1 ≤ b.1) :=
  ⟨fun _ _ _ h h2 => le_trans h h2⟩

instance : IsAntisymm (Bytes × Value) (fun a b => a.1 < b.1) :=
  ⟨fun _ _ h h2 => absurd h2 (lt_asymm h)⟩

/-- Sorting the pairs permutes them. -/
theorem sortPairs_perm (d : List (Bytes × Value)) : (sortPairs d).Perm d :=
  List.perm_insertionSort _ d

/-- Sorting the pairs yields keys in ascending byte order. -/
theorem sortPairs_sorted (d : List (Bytes × Value)) :
    List.Sorted (fun a b : Bytes × Value => a.1 ≤ b.1) (sortPairs d) :=
  List.sorted_insertionSort _ d

/-- With distinct keys the sorted pair list is unique: two association
lists holding the same key/value pairs sort identically. -/
theorem sortPairs_eq_of_perm {d₁ d₂ : List (Bytes × Value)} (hperm : d₁.Perm d₂)
    (hnd : (d₁.map Prod.fst).Nodup) : sortPairs d₁ = sortPairs d₂ := by
  have hp : (sortPairs d₁).Perm (sortPairs d₂) :=
    (sortPairs_perm d₁).trans (hperm.trans (sortPairs_perm d₂).symm)
  have key : ∀ e : List (Bytes × Value), e.Perm d₁ →
      List.Sorted (fun a b : Bytes × Value => a.1 ≤ b.1) e →
      List.Sorted (fun a b : Bytes × Value => a.1 < b.1) e := by
    intro e hpe hse
    have hnd2 : (e.map Prod.fst).Nodup := ((hpe.map Prod.fst).nodup_iff).mpr hnd
    have hne : List.Pairwise (fun a b : Bytes × Value => a.1 ≠ b.1) e :=
      List.pairwise_map.mp hnd2
    exact (List.Pairwise.and hse hne).imp fun h => lt_of_le_of_ne h.1 h.2
  exact List.eq_of_perm_of_sorted hp
    (key _ (sortPairs_perm d₁) (sortPairs_sorted d₁))
    (key _ ((sortPairs_perm d₂).trans hperm.symm) (sortPairs_sorted d₂))

/-- The pair-by-pair encoder is the concatenation of the `make` results. -/
theorem encodeEach_eq_mapM (l : List (Bytes × Value)) :
    encodeEach l = (l.mapM fun kv => make kv.1 kv.2).map List.flatten := by
  induction l with
  | nil =>
    simp only [encodeEach]
    rfl
  | cons kv rest ih =>
    obtain ⟨id, v⟩ := kv
    simp only [encodeEach, List.mapM_cons, ih]
    cases make id v with
    | none => simp
    | some c =>
      cases hrest : rest.mapM fun kv => make kv.1 kv.2 with
      | none => simp [hrest]
      | some cs => simp [hrest]

/-- C3: the encoding of a mapping is the concatenation of
`make key value` over its pairs sorted by key in ascending byte order, and
two mappings holding the same key/value pairs (distinct keys) encode to
identical bytes regardless of insertion order. -/
theorem dict_encode_sorted_deterministic (d₁ d₂ : List (Bytes × Value))
    (hperm : d₁.Perm d₂) (hnd : (d₁.map Prod.fst).Nodup) :
    encode (Value.dict d₁) =
      ((sortPairs d₁).mapM fun kv => make kv.1 kv.2).map List.flatten ∧
    List.Sorted (fun a b : Bytes × Value => a.1 ≤ b.1) (sortPairs d₁) ∧
    (sortPairs d₁).Perm d₁ ∧
    encode (Value.dict d₁) = encode (Value.dict d₂) := by
  refine ⟨?_, sortPairs_sorted d₁, sortPairs_perm d₁, ?_⟩
  · simp only [encode]
    exact encodeEach_eq_mapM _
  · simp only [encode]
    rw [sortPairs_eq_of_perm hperm hnd]

/-- Witness for C3: the same two pairs inserted in both orders encode to
the same bytes. -/
theorem dict_encode_sorted_deterministic_witness :
    encode (Value.dict [([66, 66, 66, 66], Value.int 1), ([65, 65, 65, 65], Value.int 2)]) =
    encode (Value.dict [([65, 65, 65, 65], Value.int 2), ([66, 66, 66, 66], Value.int 1)]) :=
  (dict_encode_sorted_deterministic
    [([66, 66, 66, 66], Value.int 1), ([65, 65, 65, 65], Value.int 2)]
    [([65, 65, 65, 65], Value.int 2), ([66, 66, 66, 66], Value.int 1)]
    (List.Perm.swap _ _ _) (by decide)).2.2.2

/-- C4 counterexample: `make` does not fail on a tag whose length is not 4.
`struct.pack("<4s", ...)` pads the 1-byte tag `b"X"` with NUL bytes and
truncates the 7-byte tag `b"TOOLONG"` to `b"TOOL"`. -/
theorem invalid_tag_counterexample :
    make [88] (Value.bytes []) ≠ none ∧
    make [88] (Value.bytes []) = some [88, 0, 0, 0, 0, 0, 0, 0] ∧
    make [84, 79, 79, 76, 79, 78, 71] (Value.bytes []) =
      some [84, 79, 79, 76, 0, 0, 0, 0] := by
  refine ⟨?_, ?_, ?_⟩
  · have h : make [88] (Value.bytes []) = some [88, 0, 0, 0, 0, 0, 0, 0] := by
      simp only [make, encode]
      rfl
    rw [h]
    simp
  · simp only [make, encode]
    rfl
  · simp only [make, encode]
    rfl

/-- C4 (amended): `make` never rejects a tag of the wrong length; whenever
the contents encode and their length fits in 32 bits it succeeds, emitting
the tag truncated to its first 4 bytes, or padded with NUL bytes up to 4,
exactly as `struct.pack("<4s", id)` does. -/
theorem invalid_tag_amended (id : Bytes) (contents : Value) (c : Bytes)
    (hc : encode contents = some c) (hlen : c.length < 2 ^ 32) :
    make id contents =
      some ((id.take 4 ++ List.replicate (4 - id.length) 0) ++
        ([c.length % 256, c.length / 256 % 256, c.length / 65536 % 256,
          c.length / 16777216 % 256] ++ c)) := by
  have hlen2 : c.length < 4294967296 := by omega
  simp only [make, hc]
  simp [packU32LE, hlen2, pack4s]

/-- Witness for C4 (amended) at the 1-byte tag `b"X"` with empty contents. -/
theorem invalid_tag_amended_witness :
    make [88] (Value.bytes []) =
      some ((([88] : Bytes).take 4 ++ List.replicate (4 - ([88] : Bytes).length) 0) ++
        ([([] : Bytes).length % 256, ([] : Bytes).length / 256 % 256,
          ([] : Bytes).length / 65536 % 256, ([] : Bytes).length / 16777216 % 256] ++
          ([] : Bytes))) :=
  invalid_tag_amended [88] (Value.bytes []) [] (by simp only [encode]) (by decide)

/-- C6 counterexample: the byte vector claimed in the spec declares an
outer payload length of 12 (`\x0c`), but the inner chunk
`NTVL \x01\x00\x00\x00 5` is 9 bytes long, so the code produces 9 there. -/
theorem nested_example_counterexample :
    make [68, 76, 65, 89] (Value.dict [([78, 84, 86, 76], Value.int 5)]) ≠
      some [68, 76, 65, 89, 12, 0, 0, 0, 78, 84, 86, 76, 1, 0, 0, 0, 53] := by
  have h : make [68, 76, 65, 89] (Value.dict [([78, 84, 86, 76], Value.int 5)]) =
      some [68, 76, 65, 89, 9, 0, 0, 0, 78, 84, 86, 76, 1, 0, 0, 0, 53] := by
    have hs : sortPairs [([78, 84, 86, 76], Value.int 5)] =
        [([78, 84, 86, 76], Value.int 5)] := rfl
    simp only [make, encode, hs, encodeEach]
    rfl
  rw [h]
  simp

/-- C6 (amended): encoding the one-entry mapping from key `b"NTVL"` to the
integer 5 under tag `b"DLAY"`
equals `make(b"DLAY", make(b"NTVL", "5"))` (the integer 5 encoding as the
ASCII digit "5"), and both equal the bytes
`DLAY \x09\x00\x00\x00 NTVL \x01\x00\x00\x00 5` — outer length 9, not the
12 printed in the spec. -/
theorem nested_example_vector :
    make [68, 76, 65, 89] (Value.dict [([78, 84, 86, 76], Value.int 5)]) =
      ((make [78, 84, 86, 76] (Value.str "5")).bind fun inner =>
        make [68, 76, 65, 89] (Value.bytes inner)) ∧
    make [68, 76, 65, 89] (Value.dict [([78, 84, 86, 76], Value.int 5)]) =
      some [68, 76, 65, 89, 9, 0, 0, 0, 78, 84, 86, 76, 1, 0, 0, 0, 53] := by
  have hs : sortPairs [([78, 84, 86, 76], Value.int 5)] =
      [([78, 84, 86, 76], Value.int 5)] := rfl
  constructor
  · simp only [make, encode, hs, encodeEach]
    rfl
  · simp only [make, encode, hs, encodeEach]
    rfl

end ChunkProtocol
